import Mathlib

/-!
Verification of the eligibility-gating core of the telegram_live repository
(src/app.py) against its natural-language specification.

The Python source is shallowly embedded: the `ExpiringCache` class becomes a
structure over an insertion-ordered association list (mirroring Python's
`OrderedDict`), wall-clock time becomes an explicit `now : Nat` argument
(mirroring `time.time()`), database tables become lists of rows, and the
fallible external collaborators (Telegram API, database queries) become
explicit `Except`-valued parameters.  Mutation is modelled by returning the
updated state.
-/

namespace TelegramLive

/-! ### ExpiringCache (src/app.py, lines 30-83)

`self.cache` is an `OrderedDict` mapping `key -> (timestamp, value)`.  We
model it as a list of `(key, (timestamp, value))` entries in insertion order
(head = oldest inserted).  Python dict semantics: keys are unique, and
assigning to an existing key updates its value in place without changing its
position in the order. -/

/-- First binding for `k` in an insertion-ordered association list
(dictionary lookup `self.cache[key]`). -/
def lookupEntry {K V : Type} [DecidableEq K] : List (K × Nat × V) → K → Option (Nat × V)
  | [], _ => none
  | e :: es, k => if e.1 = k then some e.2 else lookupEntry es k

/-- The keys of the ordered dictionary, in insertion order. -/
def keysOf {K V : Type} (l : List (K × Nat × V)) : List K := l.map Prod.fst

/-- `ExpiringCache.__init__`: bounded, expiring key/value store. -/
structure ExpiringCache (K V : Type) where
  cache : List (K × Nat × V)
  max_size : Nat
  ttl : Nat
deriving DecidableEq

namespace ExpiringCache

variable {K V : Type} [DecidableEq K]

/-- A fresh cache, as built by `ExpiringCache(max_size=..., ttl=...)`. -/
def empty (max_size ttl : Nat) : ExpiringCache K V := ⟨[], max_size, ttl⟩

/-- The expired-entry scan in `_cleanup`: drop every entry with
`now - ts > ttl` (Python line 78). -/
def removeExpired (ttl now : Nat) (l : List (K × Nat × V)) : List (K × Nat × V) :=
  l.filter (fun e => decide ¬(now - e.2.1 > ttl))

/-- The size-enforcement loop in `_cleanup` (Python lines 82-83):
`while len(self.cache) > self.max_size: self.cache.popitem(last=False)` —
repeatedly remove the oldest-inserted entry. -/
def evictOldest (max_size : Nat) (l : List (K × Nat × V)) : List (K × Nat × V) :=
  if l.length > max_size then evictOldest max_size l.tail else l
termination_by l.length
decreasing_by
  rename_i h
  simp only [List.length_tail]
  omega

/-- `ExpiringCache._cleanup` (Python lines 74-83). -/
def cleanup (c : ExpiringCache K V) (now : Nat) : ExpiringCache K V :=
  { c with cache := evictOldest c.max_size (removeExpired c.ttl now c.cache) }

/-- The raw dictionary write `self.cache[key] = (time.time(), value)`:
an existing key is updated in place (Python `OrderedDict` keeps its
position); a new key is appended at the end of the insertion order. -/
def setRaw (l : List (K × Nat × V)) (k : K) (now : Nat) (v : V) : List (K × Nat × V) :=
  if k ∈ keysOf l then l.map (fun e => if e.1 = k then (k, now, v) else e)
  else l ++ [(k, now, v)]

/-- `ExpiringCache.__setitem__` (Python lines 41-45): write the entry with
the current timestamp, then run `_cleanup`. -/
def set (c : ExpiringCache K V) (k : K) (v : V) (now : Nat) : ExpiringCache K V :=
  cleanup { c with cache := setRaw c.cache k now v } now

/-- `ExpiringCache.get` (Python lines 47-61): return the value if present
and not expired; an expired entry is deleted (`del self.cache[key]`) and
the default (`none`) is returned; a missing key returns the default.
The possibly-updated cache is returned alongside the result. -/
def get (c : ExpiringCache K V) (k : K) (now : Nat) : Option V × ExpiringCache K V :=
  match lookupEntry c.cache k with
  | none => (none, c)
  | some (ts, v) =>
    if now - ts > c.ttl then
      (none, { c with cache := c.cache.filter (fun e => decide ¬(e.1 = k)) })
    else (some v, c)

/-- `ExpiringCache.pop` (Python lines 63-72): remove the entry if present
(`self.cache.pop(key)`); return its value unless it was expired, in which
case return the default (`none`). -/
def pop (c : ExpiringCache K V) (k : K) (now : Nat) : Option V × ExpiringCache K V :=
  match lookupEntry c.cache k with
  | none => (none, c)
  | some (ts, v) =>
    let c' := { c with cache := c.cache.filter (fun e => decide ¬(e.1 = k)) }
    if now - ts > c.ttl then (none, c') else (some v, c')

/-- Apply a list of `set` operations `(key, time, value)` in order
(the only operations that add cache entries). -/
def applySets (c : ExpiringCache K V) (ops : List (K × Nat × V)) : ExpiringCache K V :=
  ops.foldl (fun c e => c.set e.1 e.2.2 e.2.1) c

end ExpiringCache

namespace ExpiringCache

variable {K V : Type}

theorem lookupEntry_eq_of_mem [DecidableEq K] {l : List (K × Nat × V)} {k : K} {tv : Nat × V}
    (hnd : (keysOf l).Nodup) (hmem : (k, tv) ∈ l) :
    lookupEntry l k = some tv := by
  induction l with
  | nil => simp at hmem
  | cons e es ih =>
    simp only [keysOf, List.map_cons, List.nodup_cons] at hnd
    rcases List.mem_cons.mp hmem with h | h
    · rw [← h]
      simp [lookupEntry]
    · have hk : k ∈ keysOf es := by
        simpa [keysOf] using List.mem_map_of_mem Prod.fst h
      simp only [lookupEntry]
      rw [if_neg ?_]
      · exact ih hnd.2 h
      · intro he
        apply hnd.1
        rw [he]
        simpa [keysOf] using hk

theorem mem_map_update [DecidableEq K] {l : List (K × Nat × V)} {k : K} (now : Nat) (v : V)
    (hk : k ∈ keysOf l) :
    (k, now, v) ∈ l.map (fun e => if e.1 = k then (k, now, v) else e) := by
  simp only [keysOf, List.mem_map] at hk
  obtain ⟨e, he, hek⟩ := hk
  have hrw : (if e.1 = k then (k, now, v) else e) = (k, now, v) := if_pos hek
  exact List.mem_map.mpr ⟨e, he, hrw⟩

theorem keysOf_map_update [DecidableEq K] (l : List (K × Nat × V)) (k : K) (now : Nat) (v : V) :
    keysOf (l.map (fun e => if e.1 = k then (k, now, v) else e)) = keysOf l := by
  simp only [keysOf, List.map_map]
  apply List.map_congr_left
  intro e _
  by_cases h : e.1 = k
  · simp [Function.comp, h]
  · simp [Function.comp, h]

theorem keysOf_sublist {l l' : List (K × Nat × V)} (h : List.Sublist l l') :
    List.Sublist (keysOf l) (keysOf l') := h.map Prod.fst

/-- The capacity-enforcement loop only ever removes the oldest-inserted
entries: its result is a suffix of the insertion-ordered list. -/
theorem evictOldest_suffix (m : Nat) (l : List (K × Nat × V)) :
    evictOldest m l <:+ l := by
  rw [evictOldest]
  split
  · exact (evictOldest_suffix m l.tail).trans (List.tail_suffix l)
  · exact List.suffix_refl l
termination_by l.length
decreasing_by
  rename_i h
  simp only [List.length_tail]
  omega

theorem evictOldest_sublist (m : Nat) (l : List (K × Nat × V)) :
    List.Sublist (evictOldest m l) l :=
  (evictOldest_suffix m l).sublist

theorem evictOldest_eq_of_le {m : Nat} {l : List (K × Nat × V)}
    (h : l.length ≤ m) : evictOldest m l = l := by
  rw [evictOldest, if_neg (by omega)]

/-- After the capacity-enforcement loop, the size never exceeds `max_size`. -/
theorem length_evictOldest_le (m : Nat) (l : List (K × Nat × V)) :
    (evictOldest m l).length ≤ m := by
  rw [evictOldest]
  split
  · exact length_evictOldest_le m l.tail
  · rename_i h
    omega
termination_by l.length
decreasing_by
  rename_i h
  simp only [List.length_tail]
  omega

theorem mem_evictOldest_append {m : Nat} (hm : 1 ≤ m) (l : List (K × Nat × V))
    (e : K × Nat × V) : e ∈ evictOldest m (l ++ [e]) := by
  induction l with
  | nil =>
    simp only [List.nil_append]
    rw [evictOldest, if_neg (by simp; omega)]
    simp
  | cons x xs ih =>
    rw [evictOldest]
    split
    · simpa using ih
    · simp

theorem nodup_keys_setRaw [DecidableEq K] {l : List (K × Nat × V)} (hnd : (keysOf l).Nodup)
    (k : K) (now : Nat) (v : V) : (keysOf (setRaw l k now v)).Nodup := by
  unfold setRaw
  split
  · rw [keysOf_map_update]
    exact hnd
  · rename_i hk
    simp only [keysOf, List.map_append, List.map_cons, List.map_nil]
    rw [List.nodup_append]
    refine ⟨hnd, List.nodup_singleton k, ?_⟩
    intro a ha hb
    simp only [List.mem_singleton] at hb
    subst hb
    exact hk ha

/-- After `__setitem__`, the just-written key is present with the write
timestamp and value, provided the cache respected its own invariants
(unique keys, size within capacity) and has capacity at least 1. -/
theorem lookup_set_self [DecidableEq K] (c : ExpiringCache K V) (k : K) (v : V) (now : Nat)
    (hnd : (keysOf c.cache).Nodup) (hlen : c.cache.length ≤ c.max_size)
    (hmax : 1 ≤ c.max_size) :
    lookupEntry (c.set k v now).cache k = some (now, v) := by
  have hc : (c.set k v now).cache
      = evictOldest c.max_size (removeExpired c.ttl now (setRaw c.cache k now v)) := rfl
  have hndSet : (keysOf (setRaw c.cache k now v)).Nodup := nodup_keys_setRaw hnd k now v
  have hsubKeys : List.Sublist
      (keysOf (evictOldest c.max_size (removeExpired c.ttl now (setRaw c.cache k now v))))
      (keysOf (setRaw c.cache k now v)) :=
    keysOf_sublist ((evictOldest_sublist _ _).trans (List.filter_sublist _))
  have hndFinal := List.Nodup.sublist hsubKeys hndSet
  rw [hc]
  apply lookupEntry_eq_of_mem hndFinal
  by_cases hk : k ∈ keysOf c.cache
  · have hsr : setRaw c.cache k now v
        = c.cache.map (fun e => if e.1 = k then (k, now, v) else e) := if_pos hk
    have hmem1 : (k, now, v) ∈ removeExpired c.ttl now (setRaw c.cache k now v) := by
      rw [hsr]
      apply List.mem_filter.mpr
      refine ⟨mem_map_update now v hk, ?_⟩
      simp
    have hlen2 : (removeExpired c.ttl now (setRaw c.cache k now v)).length ≤ c.max_size := by
      calc (removeExpired c.ttl now (setRaw c.cache k now v)).length
          ≤ (setRaw c.cache k now v).length := (List.filter_sublist _).length_le
        _ = c.cache.length := by rw [hsr]; simp
        _ ≤ c.max_size := hlen
    rw [evictOldest_eq_of_le hlen2]
    exact hmem1
  · have hsr : setRaw c.cache k now v = c.cache ++ [(k, now, v)] := if_neg hk
    have hre : removeExpired c.ttl now (setRaw c.cache k now v)
        = removeExpired c.ttl now c.cache ++ [(k, now, v)] := by
      rw [hsr]
      unfold removeExpired
      rw [List.filter_append]
      simp
    rw [hre]
    exact mem_evictOldest_append hmax _ _

end ExpiringCache

/-- Claim C5: for every key `k` and value `v`, `get(k)` after `set(k, v)`
within the TTL returns `v` (assuming the cache state respects the
dictionary invariants and has capacity at least 1, as every cache built by
the program does); and once the TTL has elapsed, both `get(k)` and
`pop(k)` return absent (`none`) and remove the expired entry from the
cache rather than serving it. -/
theorem cache_ttl_get_set_semantics {K V : Type} [DecidableEq K] :
    (∀ (c : ExpiringCache K V) (k : K) (v : V) (now now2 : Nat),
        (keysOf c.cache).Nodup → c.cache.length ≤ c.max_size → 1 ≤ c.max_size →
        now2 - now ≤ c.ttl → ((c.set k v now).get k now2).1 = some v)
  ∧ (∀ (c : ExpiringCache K V) (k : K) (ts : Nat) (v : V) (now : Nat),
        lookupEntry c.cache k = some (ts, v) → now - ts > c.ttl →
        (c.get k now).1 = none ∧ k ∉ keysOf (c.get k now).2.cache)
  ∧ (∀ (c : ExpiringCache K V) (k : K) (ts : Nat) (v : V) (now : Nat),
        lookupEntry c.cache k = some (ts, v) → now - ts > c.ttl →
        (c.pop k now).1 = none ∧ k ∉ keysOf (c.pop k now).2.cache) := by
  refine ⟨?_, ?_, ?_⟩
  · intro c k v now now2 hnd hlen hmax hts
    have hl := ExpiringCache.lookup_set_self c k v now hnd hlen hmax
    simp only [ExpiringCache.get, hl]
    rw [if_neg (show ¬(now2 - now > (c.set k v now).ttl) from Nat.not_lt.mpr hts)]
  · intro c k ts v now hl hexp
    constructor
    · simp only [ExpiringCache.get, hl]
      rw [if_pos hexp]
    · simp only [ExpiringCache.get, hl]
      rw [if_pos hexp]
      intro hk
      simp only [keysOf, List.mem_map] at hk
      obtain ⟨e, he, hek⟩ := hk
      have hne := (List.mem_filter.mp he).2
      simp only [decide_eq_true_eq] at hne
      exact hne hek
  · intro c k ts v now hl hexp
    constructor
    · simp only [ExpiringCache.pop, hl]
      rw [if_pos hexp]
    · simp only [ExpiringCache.pop, hl]
      rw [if_pos hexp]
      intro hk
      simp only [keysOf, List.mem_map] at hk
      obtain ⟨e, he, hek⟩ := hk
      have hne := (List.mem_filter.mp he).2
      simp only [decide_eq_true_eq] at hne
      exact hne hek

theorem cache_ttl_get_set_semantics_witness :
    ((((ExpiringCache.empty 5 10 : ExpiringCache Int Nat).set 1 42 100).get 1 105).1 = some 42)
  ∧ (((⟨[(2, 0, 7)], 5, 10⟩ : ExpiringCache Int Nat).get 2 50).1 = none
      ∧ (2 : Int) ∉ keysOf ((⟨[(2, 0, 7)], 5, 10⟩ : ExpiringCache Int Nat).get 2 50).2.cache)
  ∧ (((⟨[(2, 0, 7)], 5, 10⟩ : ExpiringCache Int Nat).pop 2 50).1 = none
      ∧ (2 : Int) ∉ keysOf ((⟨[(2, 0, 7)], 5, 10⟩ : ExpiringCache Int Nat).pop 2 50).2.cache) :=
  ⟨cache_ttl_get_set_semantics.1 (ExpiringCache.empty 5 10) 1 42 100 105
      (by decide) (by decide) (by decide) (by decide),
   cache_ttl_get_set_semantics.2.1 ⟨[(2, 0, 7)], 5, 10⟩ 2 0 7 50 (by decide) (by decide),
   cache_ttl_get_set_semantics.2.2 ⟨[(2, 0, 7)], 5, 10⟩ 2 0 7 50 (by decide) (by decide)⟩

namespace ExpiringCache

theorem max_size_applySets {K V : Type} [DecidableEq K] (ops : List (K × Nat × V)) :
    ∀ c : ExpiringCache K V, (c.applySets ops).max_size = c.max_size := by
  induction ops with
  | nil => intro c; rfl
  | cons e es ih =>
    intro c
    show ((c.set e.1 e.2.2 e.2.1).applySets es).max_size = c.max_size
    rw [ih]
    rfl

theorem applySets_length_le {K V : Type} [DecidableEq K] (ops : List (K × Nat × V)) :
    ∀ c : ExpiringCache K V, c.cache.length ≤ c.max_size →
      (c.applySets ops).cache.length ≤ c.max_size := by
  induction ops with
  | nil => intro c h; exact h
  | cons e es ih =>
    intro c _
    show ((c.set e.1 e.2.2 e.2.1).applySets es).cache.length ≤ c.max_size
    exact ih (c.set e.1 e.2.2 e.2.1) (length_evictOldest_le _ _)

end ExpiringCache

/-- Claim C6: after any sequence of `set` operations the number of stored
entries never exceeds the configured capacity `max_size`; the
capacity-eviction loop removes entries strictly in insertion order (its
result is a suffix of the insertion-ordered entry list, so the entries it
drops are exactly the oldest-inserted ones), reads of a live entry leave
the cache — and hence the eviction order — untouched; and overwriting an
existing key leaves the key order (and so that key's eviction position)
unchanged. -/
theorem cache_capacity_and_eviction_order {K V : Type} [DecidableEq K] :
    (∀ (c : ExpiringCache K V) (k : K) (v : V) (now : Nat),
        (c.set k v now).cache.length ≤ c.max_size)
  ∧ (∀ (m t : Nat) (ops : List (K × Nat × V)),
        ((ExpiringCache.empty m t).applySets ops).cache.length ≤ m)
  ∧ (∀ (m : Nat) (l : List (K × Nat × V)), (ExpiringCache.evictOldest m l).IsSuffix l)
  ∧ (∀ (l : List (K × Nat × V)) (k : K) (now : Nat) (v : V),
        k ∈ keysOf l → keysOf (ExpiringCache.setRaw l k now v) = keysOf l)
  ∧ (∀ (c : ExpiringCache K V) (k : K) (now : Nat) (v : V),
        (c.get k now).1 = some v → (c.get k now).2 = c) := by
  refine ⟨?_, ?_, ?_, ?_, ?_⟩
  · intro c k v now
    exact ExpiringCache.length_evictOldest_le _ _
  · intro m t ops
    exact ExpiringCache.applySets_length_le ops (ExpiringCache.empty m t) (by simp [ExpiringCache.empty])
  · intro m l
    exact ExpiringCache.evictOldest_suffix m l
  · intro l k now v hk
    unfold ExpiringCache.setRaw
    rw [if_pos hk]
    exact ExpiringCache.keysOf_map_update l k now v
  · intro c k now v hg
    cases hl : lookupEntry c.cache k with
    | none =>
      simp only [ExpiringCache.get, hl] at hg
      simp at hg
    | some tsv =>
      obtain ⟨ts, v2⟩ := tsv
      by_cases hexp : now - ts > c.ttl
      · simp only [ExpiringCache.get, hl] at hg
        rw [if_pos hexp] at hg
        simp at hg
      · simp only [ExpiringCache.get, hl]
        rw [if_neg hexp]

theorem cache_capacity_and_eviction_order_witness :
    keysOf (ExpiringCache.setRaw [((2 : Int), 0, (7 : Nat)), (3, 1, 8)] 2 9 99)
      = keysOf [((2 : Int), 0, (7 : Nat)), (3, 1, 8)]
  ∧ ((⟨[((2 : Int), 0, (7 : Nat))], 5, 10⟩ : ExpiringCache Int Nat).get 2 5).2
      = (⟨[((2 : Int), 0, (7 : Nat))], 5, 10⟩ : ExpiringCache Int Nat) :=
  ⟨cache_capacity_and_eviction_order.2.2.2.1 [((2 : Int), 0, (7 : Nat)), (3, 1, 8)] 2 9 99
      (by decide),
   cache_capacity_and_eviction_order.2.2.2.2 ⟨[((2 : Int), 0, (7 : Nat))], 5, 10⟩ 2 5 7
      (by decide)⟩

/-! ### Database model (src/app.py, `initialize_database`, lines 290-343)

`referrals(referrer_id, referred_id, UNIQUE(referrer_id, referred_id))` and
`pending_referrals(referrer_id, referred_id, UNIQUE(referred_id))` become
lists of `(referrer_id, referred_id)` rows in insertion order. -/

/-- The referral-related database state: the `referrals` and
`pending_referrals` tables. -/
structure DBState where
  referrals : List (Int × Int)
  pending : List (Int × Int)
deriving DecidableEq

/-- `SELECT`-side of `DELETE FROM pending_referrals WHERE referred_id = %s
RETURNING referrer_id` followed by `fetchone()`: the referrer of the first
row for this referred user, if any. -/
def lookupReferrer : List (Int × Int) → Int → Option Int
  | [], _ => none
  | row :: rest, u => if row.2 = u then some row.1 else lookupReferrer rest u

/-- `DELETE FROM pending_referrals WHERE referred_id = %s`: remove every
row whose `referred_id` is `u` (the unique constraint keeps this to at most
one row in practice). -/
def deletePendingRows (pending : List (Int × Int)) (u : Int) : List (Int × Int) :=
  pending.filter (fun row => decide ¬(row.2 = u))

/-- `INSERT INTO referrals (referrer_id, referred_id) VALUES (%s, %s)
ON CONFLICT DO NOTHING` under `UNIQUE(referrer_id, referred_id)`:
append the row unless the pair is already present. -/
def insertReferralOnConflictDoNothing (referrals : List (Int × Int)) (r u : Int) :
    List (Int × Int) :=
  if (r, u) ∈ referrals then referrals else referrals ++ [(r, u)]

/-- `INSERT INTO pending_referrals (referrer_id, referred_id) VALUES (%s, %s)
ON CONFLICT (referred_id) DO UPDATE SET referrer_id = EXCLUDED.referrer_id`
(src/app.py lines 552-560): if a row for this referred user exists its
referrer is overwritten in place, otherwise the row is appended. -/
def insertPendingUpsert (pending : List (Int × Int)) (r u : Int) : List (Int × Int) :=
  if pending.any (fun row => decide (row.2 = u)) then
    pending.map (fun row => if row.2 = u then (r, u) else row)
  else pending ++ [(r, u)]

/-- The PENDING → CONFIRMED transition (src/app.py lines 658-676, also
`process_pending_referral`, lines 1267-1290): atomically delete-and-read
the pending row for the referred user `u`; if a row was found, insert the
confirmed referral with `ON CONFLICT DO NOTHING`; otherwise nothing
further happens. -/
def confirmReferral (db : DBState) (u : Int) : DBState :=
  match lookupReferrer db.pending u with
  | none => { db with pending := deletePendingRows db.pending u }
  | some r => { referrals := insertReferralOnConflictDoNothing db.referrals r u,
                pending := deletePendingRows db.pending u }

/-! ### `/start` referral parameter handling
(src/app.py, `safe_int_convert` lines 509-514 and `send_welcome`
lines 543-561) -/

/-- One digit group of a Python integer literal, after the first digit:
digits with single underscores allowed between digits (`int("1_0") = 10`,
`int("1__0")` and `int("1_")` raise). -/
def parseDigitsGo (acc : Nat) : List Char → Option Nat
  | [] => some acc
  | '_' :: c :: cs =>
      if c.isDigit then parseDigitsGo (acc * 10 + (c.toNat - 48)) cs else none
  | ['_'] => none
  | c :: cs =>
      if c.isDigit then parseDigitsGo (acc * 10 + (c.toNat - 48)) cs else none

/-- A nonempty run of digits (with Python's underscore grouping). -/
def parseDigits : List Char → Option Nat
  | [] => none
  | c :: cs => if c.isDigit then parseDigitsGo (c.toNat - 48) cs else none

/-- The whitespace characters stripped by Python around an integer
literal. -/
def isPySpace (c : Char) : Bool :=
  c == ' ' || c == '\t' || c == '\n' || c == '\r' || c == '\x0b' || c == '\x0c'

/-- Strip leading and trailing whitespace. -/
def pyTrim (l : List Char) : List Char :=
  ((l.dropWhile isPySpace).reverse.dropWhile isPySpace).reverse

/-- Python's `int(str)` conversion: strip surrounding whitespace, allow an
optional `+`/`-` sign, then a nonempty digit run; anything else raises
`ValueError`, modelled as `none`. -/
def pyIntParse (s : String) : Option Int :=
  match pyTrim s.toList with
  | [] => none
  | '+' :: cs => (parseDigits cs).map Int.ofNat
  | '-' :: cs => (parseDigits cs).map (fun n => -(Int.ofNat n))
  | cs => (parseDigits cs).map Int.ofNat

/-- `safe_int_convert` (src/app.py lines 509-514): `int(value)` with the
default `0` on `ValueError`/`TypeError`. -/
def safe_int_convert (value : String) : Int :=
  match pyIntParse value with
  | some n => n
  | none => 0

/-- The referral-validation guard and pending upsert in `send_welcome`
(src/app.py lines 549-560), after the parameter has been converted:
`if referrer_id != 0 and referrer_id != user_id:` store the pending
referral, else do nothing. -/
def processStartParam (pending : List (Int × Int)) (user_id referrer_id : Int) :
    List (Int × Int) :=
  if referrer_id ≠ 0 ∧ referrer_id ≠ user_id then
    insertPendingUpsert pending referrer_id user_id
  else pending

/-- The referral-processing step of `send_welcome` for a `/start` message
carrying the raw parameter string `param`. -/
def startReferralStep (pending : List (Int × Int)) (user_id : Int) (param : String) :
    List (Int × Int) :=
  processStartParam pending user_id (safe_int_convert param)

/-- The referral-state-changing operations of the handler layer: a `/start`
with a referral parameter, and a membership verification (which confirms
any pending referral). -/
inductive BotOp where
  | start (user_id : Int) (param : String)
  | verify (user_id : Int)

/-- Run a handler operation against the database. -/
def applyOp (db : DBState) : BotOp → DBState
  | .start u param => { db with pending := startReferralStep db.pending u param }
  | .verify u => confirmReferral db u

/-- Run a sequence of handler operations from the freshly-initialized
(empty) database. -/
def runOps (ops : List BotOp) : DBState :=
  ops.foldl applyOp ⟨[], []⟩

/-- No persisted referral row — pending or confirmed — is a self-referral. -/
def NoSelfReferral (db : DBState) : Prop :=
  (∀ row ∈ db.pending, row.1 ≠ row.2) ∧ (∀ row ∈ db.referrals, row.1 ≠ row.2)

theorem lookupReferrer_eq_none_iff {p : List (Int × Int)} {u : Int} :
    lookupReferrer p u = none ↔ ∀ row ∈ p, row.2 ≠ u := by
  induction p with
  | nil => simp [lookupReferrer]
  | cons row rest ih =>
    simp only [lookupReferrer]
    by_cases h : row.2 = u
    · simp [h]
    · simp [h, ih]

theorem mem_of_lookupReferrer {p : List (Int × Int)} {u r : Int}
    (h : lookupReferrer p u = some r) : (r, u) ∈ p := by
  induction p with
  | nil => simp [lookupReferrer] at h
  | cons row rest ih =>
    simp only [lookupReferrer] at h
    by_cases hr : row.2 = u
    · rw [if_pos hr] at h
      have h1 : row.1 = r := Option.some.inj h
      have hrow : row = (r, u) := Prod.ext_iff.mpr ⟨h1, hr⟩
      rw [← hrow]
      exact List.mem_cons_self row rest
    · rw [if_neg hr] at h
      exact List.mem_cons_of_mem _ (ih h)

theorem deletePendingRows_eq_self {p : List (Int × Int)} {u : Int}
    (h : ∀ row ∈ p, row.2 ≠ u) : deletePendingRows p u = p := by
  unfold deletePendingRows
  apply List.filter_eq_self.mpr
  intro row hrow
  simpa using h row hrow

theorem lookupReferrer_deletePendingRows (p : List (Int × Int)) (u : Int) :
    lookupReferrer (deletePendingRows p u) u = none := by
  apply lookupReferrer_eq_none_iff.mpr
  intro row hrow
  have := (List.mem_filter.mp hrow).2
  simpa using this

theorem lookupReferrer_map_update {p : List (Int × Int)} {u : Int} (r : Int)
    (hany : p.any (fun row => decide (row.2 = u)) = true) :
    lookupReferrer (p.map (fun row => if row.2 = u then (r, u) else row)) u = some r := by
  induction p with
  | nil => simp at hany
  | cons row rest ih =>
    rw [List.any_cons] at hany
    simp only [List.map_cons, lookupReferrer]
    by_cases h : row.2 = u
    · simp [h]
    · simp only [h, if_false]
      apply ih
      simpa [h] using hany

theorem lookupReferrer_append_of_none {p l2 : List (Int × Int)} {u : Int}
    (h : ∀ row ∈ p, row.2 ≠ u) :
    lookupReferrer (p ++ l2) u = lookupReferrer l2 u := by
  induction p with
  | nil => simp
  | cons row rest ih =>
    simp only [List.cons_append, lookupReferrer]
    rw [if_neg (h row (List.mem_cons_self row rest))]
    exact ih (fun q hq => h q (List.mem_cons_of_mem row hq))

theorem lookupReferrer_insertPendingUpsert (p : List (Int × Int)) (r u : Int) :
    lookupReferrer (insertPendingUpsert p r u) u = some r := by
  unfold insertPendingUpsert
  split
  · rename_i hany
    exact lookupReferrer_map_update r hany
  · rename_i hany
    rw [lookupReferrer_append_of_none ?_]
    · simp [lookupReferrer]
    · intro row hrow heq
      apply hany
      exact List.any_eq_true.mpr ⟨row, hrow, by simp [heq]⟩

theorem confirmReferral_pending (db : DBState) (u : Int) :
    (confirmReferral db u).pending = deletePendingRows db.pending u := by
  unfold confirmReferral
  cases lookupReferrer db.pending u <;> rfl

theorem confirmReferral_noop {db : DBState} {u : Int}
    (h : lookupReferrer db.pending u = none) : confirmReferral db u = db := by
  unfold confirmReferral
  rw [h, deletePendingRows_eq_self (lookupReferrer_eq_none_iff.mp h)]

theorem count_insertReferral_le {refs : List (Int × Int)} {pair : Int × Int} (r u : Int)
    (h : refs.count pair ≤ 1) :
    (insertReferralOnConflictDoNothing refs r u).count pair ≤ 1 := by
  unfold insertReferralOnConflictDoNothing
  split
  · exact h
  · rename_i hmem
    rw [List.count_append]
    by_cases hp : pair = (r, u)
    · subst hp
      rw [List.count_eq_zero.mpr hmem]
      simp
    · have hz : ([(r, u)]).count pair = 0 := by
        rw [List.count_eq_zero]
        simp only [List.mem_singleton]
        exact hp
      omega

/-- Claim C2: the PENDING → CONFIRMED transition deletes-and-reads the
pending row keyed by the referred user and inserts into `referrals` doing
nothing on conflict.  If no pending row exists for the referred user the
transition leaves the database exactly as it was (a no-op, not an error);
after a confirmation no pending row for the referred user remains, so
repeating the confirmation is the identity; and no `(referrer, referred)`
pair is ever inserted a second time (the duplicate bound on the
`referrals` table is preserved). -/
theorem confirm_referral_transition :
    (∀ (db : DBState) (u : Int),
        lookupReferrer db.pending u = none → confirmReferral db u = db)
  ∧ (∀ (db : DBState) (u r : Int), lookupReferrer db.pending u = some r →
        (confirmReferral db u).referrals = insertReferralOnConflictDoNothing db.referrals r u
          ∧ ∀ row ∈ (confirmReferral db u).pending, row.2 ≠ u)
  ∧ (∀ (db : DBState) (u : Int),
        confirmReferral (confirmReferral db u) u = confirmReferral db u)
  ∧ (∀ (db : DBState) (u : Int) (pair : Int × Int), db.referrals.count pair ≤ 1 →
        (confirmReferral db u).referrals.count pair ≤ 1) := by
  refine ⟨?_, ?_, ?_, ?_⟩
  · intro db u h
    exact confirmReferral_noop h
  · intro db u r h
    constructor
    · unfold confirmReferral
      rw [h]
    · intro row hrow
      rw [confirmReferral_pending] at hrow
      have := (List.mem_filter.mp hrow).2
      simpa using this
  · intro db u
    apply confirmReferral_noop
    rw [confirmReferral_pending]
    exact lookupReferrer_deletePendingRows _ _
  · intro db u pair h
    unfold confirmReferral
    cases lookupReferrer db.pending u with
    | none => exact h
    | some r => exact count_insertReferral_le r u h

theorem confirm_referral_transition_witness :
    confirmReferral ⟨[], []⟩ 5 = ⟨[], []⟩
  ∧ ((confirmReferral ⟨[], [(3, 5)]⟩ 5).referrals
        = insertReferralOnConflictDoNothing [] 3 5
      ∧ ∀ row ∈ (confirmReferral ⟨[], [(3, 5)]⟩ 5).pending, row.2 ≠ 5)
  ∧ (confirmReferral ⟨[(3, 5)], []⟩ 5).referrals.count (3, 5) ≤ 1 :=
  ⟨confirm_referral_transition.1 ⟨[], []⟩ 5 (by decide),
   confirm_referral_transition.2.1 ⟨[], [(3, 5)]⟩ 5 3 (by decide),
   confirm_referral_transition.2.2.2 ⟨[(3, 5)], []⟩ 5 (3, 5) (by decide)⟩

theorem confirmReferral_referrals_some {db : DBState} {u r : Int}
    (hl : lookupReferrer db.pending u = some r) :
    (confirmReferral db u).referrals = insertReferralOnConflictDoNothing db.referrals r u := by
  unfold confirmReferral
  rw [hl]

theorem filter_map_update_nil {rest : List (Int × Int)} {u : Int} (r : Int)
    (h : ∀ row ∈ rest, row.2 ≠ u) :
    (rest.map (fun row => if row.2 = u then (r, u) else row)).filter
      (fun row => decide (row.2 = u)) = [] := by
  induction rest with
  | nil => rfl
  | cons row rs ih =>
    have hr : row.2 ≠ u := h row (List.mem_cons_self row rs)
    simp only [List.map_cons, hr, if_false, List.filter_cons]
    rw [if_neg (by simp [hr])]
    exact ih (fun q hq => h q (List.mem_cons_of_mem row hq))

theorem filter_map_update {p : List (Int × Int)} {u : Int} (r : Int)
    (hnd : (p.map Prod.snd).Nodup)
    (hany : p.any (fun row => decide (row.2 = u)) = true) :
    (p.map (fun row => if row.2 = u then (r, u) else row)).filter
      (fun row => decide (row.2 = u)) = [(r, u)] := by
  induction p with
  | nil => simp at hany
  | cons row rs ih =>
    simp only [List.map_cons, List.nodup_cons] at hnd
    by_cases h : row.2 = u
    · have hrs : ∀ q ∈ rs, q.2 ≠ u := by
        intro q hq hqu
        apply hnd.1
        have hm : q.2 ∈ rs.map Prod.snd := List.mem_map_of_mem Prod.snd hq
        rw [hqu] at hm
        rw [h]
        exact hm
      simp only [List.map_cons, h, if_true, List.filter_cons]
      rw [if_pos (by simp)]
      rw [filter_map_update_nil r hrs]
    · simp only [List.map_cons, h, if_false, List.filter_cons]
      rw [if_neg (by simp [h])]
      apply ih hnd.2
      rw [List.any_cons] at hany
      simpa [h] using hany

theorem filter_insertPendingUpsert {p : List (Int × Int)} {u : Int} (r : Int)
    (hnd : (p.map Prod.snd).Nodup) :
    (insertPendingUpsert p r u).filter (fun row => decide (row.2 = u)) = [(r, u)] := by
  unfold insertPendingUpsert
  split
  · rename_i hany
    exact filter_map_update r hnd hany
  · rename_i hany
    rw [List.filter_append]
    have h1 : p.filter (fun row => decide (row.2 = u)) = [] := by
      rw [List.filter_eq_nil_iff]
      intro row hrow
      simp only [decide_eq_true_eq]
      intro heq
      exact hany (List.any_eq_true.mpr ⟨row, hrow, by simp [heq]⟩)
    rw [h1]
    simp [List.filter_cons]

theorem nodup_snd_insertPendingUpsert (p : List (Int × Int)) (r u : Int)
    (hnd : (p.map Prod.snd).Nodup) :
    ((insertPendingUpsert p r u).map Prod.snd).Nodup := by
  unfold insertPendingUpsert
  split
  · have heq : (p.map (fun row => if row.2 = u then (r, u) else row)).map Prod.snd
        = p.map Prod.snd := by
      rw [List.map_map]
      apply List.map_congr_left
      intro row _
      by_cases h : row.2 = u
      · simp [Function.comp, h]
      · simp [Function.comp, h]
    rw [heq]
    exact hnd
  · rename_i hany
    rw [List.map_append]
    simp only [List.map_cons, List.map_nil]
    rw [List.nodup_append]
    refine ⟨hnd, List.nodup_singleton u, ?_⟩
    intro a ha hb
    simp only [List.mem_singleton] at hb
    subst hb
    simp only [List.mem_map] at ha
    obtain ⟨row, hrow, hru⟩ := ha
    apply hany
    exact List.any_eq_true.mpr ⟨row, hrow, by simp [hru]⟩

/-- Claim C3: for a referred user `u`, recording a pending referral with
referrer `x` through the `/start` handler guard and then another with
referrer `y` (both valid: nonzero, not self) leaves exactly one
`pending_referrals` row for `u`, whose referrer is `y` — the upsert keyed
on `referred_id` is last-write-wins — and a later confirmation for `u`
credits `y`. -/
theorem pending_referral_last_write_wins :
    ∀ (pending referrals : List (Int × Int)) (x y u : Int),
      (pending.map Prod.snd).Nodup →
      x ≠ 0 → x ≠ u → y ≠ 0 → y ≠ u →
      (processStartParam (processStartParam pending u x) u y).filter
          (fun row => decide (row.2 = u)) = [(y, u)]
      ∧ lookupReferrer (processStartParam (processStartParam pending u x) u y) u = some y
      ∧ (confirmReferral ⟨referrals, processStartParam (processStartParam pending u x) u y⟩
            u).referrals = insertReferralOnConflictDoNothing referrals y u := by
  intro pending referrals x y u hnd hx0 hxu hy0 hyu
  have hp2 : processStartParam (processStartParam pending u x) u y
      = insertPendingUpsert (insertPendingUpsert pending x u) y u := by
    unfold processStartParam
    rw [if_pos ⟨hy0, hyu⟩, if_pos ⟨hx0, hxu⟩]
  rw [hp2]
  have hnd1 := nodup_snd_insertPendingUpsert pending x u hnd
  refine ⟨filter_insertPendingUpsert y hnd1,
    lookupReferrer_insertPendingUpsert _ y u, ?_⟩
  exact confirmReferral_referrals_some
    (lookupReferrer_insertPendingUpsert (insertPendingUpsert pending x u) y u)

theorem pending_referral_last_write_wins_witness :
    (processStartParam (processStartParam [] 7 3) 7 4).filter
        (fun row => decide (row.2 = 7)) = [(4, 7)]
    ∧ lookupReferrer (processStartParam (processStartParam [] 7 3) 7 4) 7 = some 4
    ∧ (confirmReferral ⟨[], processStartParam (processStartParam [] 7 3) 7 4⟩ 7).referrals
        = insertReferralOnConflictDoNothing [] 4 7 :=
  pending_referral_last_write_wins [] [] 3 4 7 (by decide) (by decide) (by decide)
    (by decide) (by decide)

theorem mem_insertPendingUpsert {p : List (Int × Int)} {r u : Int} {row : Int × Int}
    (h : row ∈ insertPendingUpsert p r u) : row ∈ p ∨ row = (r, u) := by
  unfold insertPendingUpsert at h
  split at h
  · simp only [List.mem_map] at h
    obtain ⟨q, hq, hEq⟩ := h
    by_cases hqu : q.2 = u
    · right
      rw [← hEq]
      simp [hqu]
    · left
      rw [← hEq]
      simpa [hqu] using hq
  · rcases List.mem_append.mp h with h1 | h1
    · left
      exact h1
    · right
      simpa using h1

theorem processStartParam_zero (pending : List (Int × Int)) (u : Int) :
    processStartParam pending u 0 = pending := by
  unfold processStartParam
  rw [if_neg (by simp)]

theorem noSelf_applyOp {db : DBState} (h : NoSelfReferral db) (op : BotOp) :
    NoSelfReferral (applyOp db op) := by
  cases op with
  | start u param =>
    refine ⟨?_, h.2⟩
    intro row hrow
    simp only [applyOp] at hrow
    unfold startReferralStep processStartParam at hrow
    split at hrow
    · rename_i hguard
      rcases mem_insertPendingUpsert hrow with h1 | h1
      · exact h.1 row h1
      · rw [h1]
        exact hguard.2
    · exact h.1 row hrow
  | verify u =>
    constructor
    · intro row hrow
      simp only [applyOp] at hrow
      rw [confirmReferral_pending] at hrow
      exact h.1 row (List.mem_filter.mp hrow).1
    · intro row hrow
      simp only [applyOp] at hrow
      cases hl : lookupReferrer db.pending u with
      | none =>
        rw [confirmReferral_noop hl] at hrow
        exact h.2 row hrow
      | some r =>
        rw [confirmReferral_referrals_some hl] at hrow
        unfold insertReferralOnConflictDoNothing at hrow
        split at hrow
        · exact h.2 row hrow
        · rcases List.mem_append.mp hrow with h1 | h1
          · exact h.2 row h1
          · simp only [List.mem_singleton] at h1
            rw [h1]
            exact h.1 (r, u) (mem_of_lookupReferrer hl)

theorem noSelf_foldl (ops : List BotOp) :
    ∀ db : DBState, NoSelfReferral db → NoSelfReferral (ops.foldl applyOp db) := by
  induction ops with
  | nil => intro db h; exact h
  | cons op rest ih =>
    intro db h
    exact ih _ (noSelf_applyOp h op)

/-- Claim C4: no sequence of handler operations ever persists a
self-referral — starting from the freshly-initialized database, no
`pending_referrals` or `referrals` row with `referrer_id = referred_id` is
ever created — and the `/start` referral handler creates no pending row
when the converted referrer parameter equals 0. -/
theorem no_self_referral_invariant :
    (∀ ops : List BotOp, NoSelfReferral (runOps ops))
  ∧ (∀ (pending : List (Int × Int)) (u : Int), processStartParam pending u 0 = pending) := by
  constructor
  · intro ops
    apply noSelf_foldl
    exact ⟨by simp, by simp⟩
  · exact processStartParam_zero

theorem no_self_referral_invariant_witness :
    NoSelfReferral (runOps [BotOp.start 7 "3", BotOp.verify 7])
    ∧ processStartParam [] 9 0 = [] :=
  ⟨no_self_referral_invariant.1 [BotOp.start 7 "3", BotOp.verify 7],
   no_self_referral_invariant.2 [] 9⟩

/-- Claim C10: a `/start` referral parameter that does not parse as an
integer makes `safe_int_convert` return the default 0, and consequently
the handler stores no pending referral row: unparseable parameters are
silently ignored. -/
theorem unparseable_referral_param_ignored :
    ∀ s : String, pyIntParse s = none →
      safe_int_convert s = 0
      ∧ ∀ (pending : List (Int × Int)) (u : Int), startReferralStep pending u s = pending := by
  intro s h
  have h0 : safe_int_convert s = 0 := by
    unfold safe_int_convert
    rw [h]
  refine ⟨h0, ?_⟩
  intro pending u
  unfold startReferralStep
  rw [h0]
  exact processStartParam_zero pending u

theorem unparseable_referral_param_ignored_witness :
    safe_int_convert "abc" = 0
    ∧ ∀ (pending : List (Int × Int)) (u : Int), startReferralStep pending u "abc" = pending :=
  unparseable_referral_param_ignored "abc" (by decide)

/-! ### `get_user_status` (src/app.py lines 372-415)

The two caches are threaded explicitly; the three fallible collaborators —
the `admins` database query, the Telegram membership API (one result per
retry attempt), and the `referrals` count query — are passed as
`Except`-valued parameters (`Except.error` models a raised exception). -/

/-- The status dictionary returned by `get_user_status`. -/
structure UserStatus where
  is_member : Bool
  referral_count : Nat
  is_admin : Bool
deriving DecidableEq

/-- `safe_telegram_call` (src/app.py lines 359-370): `tenacity.retry` with
`stop_after_attempt(3)` runs the wrapped call up to three times, returning
the first success; after the third failed attempt the exception
propagates. -/
def safe_telegram_call {A : Type} (call : Nat → Except Unit A) : Except Unit A :=
  match call 1 with
  | .ok a => .ok a
  | .error _ =>
    match call 2 with
    | .ok a => .ok a
    | .error _ => call 3

/-- The admin-status step of `get_user_status` (lines 383-389):
`status['is_admin']` starts `False` and the admins query runs in a
`try/except`, so on any database error it stays `False`. -/
def adminStep (adminQuery : Except Unit Bool) : Bool :=
  match adminQuery with
  | .ok b => b
  | .error _ => false

/-- The membership step of `get_user_status` (lines 391-399): if the
cached value is absent, call the API through `safe_telegram_call`; on
success cache the result under the user id and return it; on failure
(`except`) return `False` without touching the cache. -/
def membershipStep (user_id : Int) (cached : Option Bool) (mc : ExpiringCache Int Bool)
    (now : Nat) (memberApi : Nat → Except Unit Bool) : Bool × ExpiringCache Int Bool :=
  match cached with
  | some b => (b, mc)
  | none =>
    match safe_telegram_call memberApi with
    | .ok b => (b, mc.set user_id b now)
    | .error _ => (false, mc)

/-- The referral-count step of `get_user_status` (lines 401-413): if the
cached value is absent, run the count query; on success cache and return
it; on failure return 0 without touching the cache. -/
def referralCountStep (user_id : Int) (cached : Option Nat) (rc : ExpiringCache Int Nat)
    (now : Nat) (refCountQuery : Except Unit Nat) : Nat × ExpiringCache Int Nat :=
  match cached with
  | some n => (n, rc)
  | none =>
    match refCountQuery with
    | .ok n => (n, rc.set user_id n now)
    | .error _ => (0, rc)

/-- `get_user_status` (src/app.py lines 372-415): resolve
`{is_member, referral_count, is_admin}`, reading the two caches first
(which may drop expired entries) and falling back to the collaborators on
a miss.  The function catches every collaborator error, so it always
returns a status; the updated caches are returned alongside it. -/
def get_user_status (user_id : Int) (mc : ExpiringCache Int Bool)
    (rc : ExpiringCache Int Nat) (now : Nat) (adminQuery : Except Unit Bool)
    (memberApi : Nat → Except Unit Bool) (refCountQuery : Except Unit Nat) :
    UserStatus × ExpiringCache Int Bool × ExpiringCache Int Nat :=
  (⟨(membershipStep user_id (mc.get user_id now).1 (mc.get user_id now).2 now memberApi).1,
    (referralCountStep user_id (rc.get user_id now).1 (rc.get user_id now).2 now refCountQuery).1,
    adminStep adminQuery⟩,
   (membershipStep user_id (mc.get user_id now).1 (mc.get user_id now).2 now memberApi).2,
   (referralCountStep user_id (rc.get user_id now).1 (rc.get user_id now).2 now refCountQuery).2)

theorem safe_telegram_call_all_fail {A : Type} {call : Nat → Except Unit A}
    (h : ∀ i, call i = Except.error ()) : safe_telegram_call call = Except.error () := by
  unfold safe_telegram_call
  simp only [h]

/-- Claim C7: when the membership cache misses and the external membership
check fails on all retry attempts, the failure is not propagated:
`get_user_status` still returns a status, with `is_member = false`
(fail-closed). -/
theorem membership_api_failure_fail_closed :
    ∀ (user_id : Int) (mc : ExpiringCache Int Bool) (rc : ExpiringCache Int Nat)
      (now : Nat) (adminQuery : Except Unit Bool) (memberApi : Nat → Except Unit Bool)
      (refCountQuery : Except Unit Nat),
      (mc.get user_id now).1 = none →
      (∀ i, memberApi i = Except.error ()) →
      (get_user_status user_id mc rc now adminQuery memberApi refCountQuery).1.is_member
        = false := by
  intro uid mc rc now aq api rq hmiss hfail
  have hstc := safe_telegram_call_all_fail hfail
  show (membershipStep uid (mc.get uid now).1 (mc.get uid now).2 now api).1 = false
  rw [hmiss]
  unfold membershipStep
  rw [hstc]

theorem membership_api_failure_fail_closed_witness :
    (get_user_status 1 (ExpiringCache.empty 5000 1800) (ExpiringCache.empty 5000 3600) 0
        (Except.ok false) (fun _ => Except.error ()) (Except.ok 0)).1.is_member = false :=
  membership_api_failure_fail_closed 1 (ExpiringCache.empty 5000 1800)
    (ExpiringCache.empty 5000 3600) 0 (Except.ok false) (fun _ => Except.error ())
    (Except.ok 0) (by decide) (fun _ => rfl)

/-- Claim C9: if the admins database query raises during status
resolution, `get_user_status` swallows the error and reports
`is_admin = false` (fail-closed authorization); the admin check never
makes `get_user_status` itself raise (in this embedding it is a total
function). -/
theorem admin_query_failure_fail_closed :
    ∀ (user_id : Int) (mc : ExpiringCache Int Bool) (rc : ExpiringCache Int Nat)
      (now : Nat) (memberApi : Nat → Except Unit Bool) (refCountQuery : Except Unit Nat),
      (get_user_status user_id mc rc now (Except.error ()) memberApi refCountQuery).1.is_admin
        = false := by
  intro uid mc rc now api rq
  rfl

/-! ### `send_batch_messages` (src/app.py lines 418-440)

The loop `for i in range(0, len(user_ids), BATCH_SIZE)` with
`batch = user_ids[i:i+BATCH_SIZE]` visits `ceil(n / BATCH_SIZE)` slices;
within a batch each send runs in a `try/except` that counts a failure and
continues; `time.sleep(DELAY)` runs after every batch.  The fallible
per-recipient send is modelled by a `sendOk` predicate. -/

/-- `BATCH_SIZE = 30` (Telegram's burst rate limit). -/
def BATCH_SIZE : Nat := 30

/-- The list of slices `user_ids[i:i+BATCH_SIZE]` for
`i in range(0, len(user_ids), BATCH_SIZE)`. -/
def batchesOf {α : Type} (user_ids : List α) : List (List α) :=
  (List.range ((user_ids.length + (BATCH_SIZE - 1)) / BATCH_SIZE)).map
    (fun i => (user_ids.drop (BATCH_SIZE * i)).take BATCH_SIZE)

/-- The inner loop of `send_batch_messages`: attempt each recipient of the
batch in order, incrementing the success or failure counter; an exception
is caught and counted, never aborting the loop. -/
def sendToBatch {α : Type} (sendOk : α → Bool) (batch : List α) (acc : Nat × Nat) :
    Nat × Nat :=
  batch.foldl (fun sf uid => if sendOk uid then (sf.1 + 1, sf.2) else (sf.1, sf.2 + 1)) acc

/-- `send_batch_messages` (src/app.py lines 418-440): run the batched loop
and return `(success, failures)`. -/
def send_batch_messages {α : Type} (sendOk : α → Bool) (user_ids : List α) : Nat × Nat :=
  (batchesOf user_ids).foldl (fun acc batch => sendToBatch sendOk batch acc) (0, 0)

/-- Observable events of a broadcast run: an attempted send (with its
outcome) and the 1-second `time.sleep(DELAY)` after each batch. -/
inductive SendEvent (α : Type) where
  | sent (uid : α) (ok : Bool)
  | slept
deriving DecidableEq

/-- The event trace of `send_batch_messages`: within each batch every
recipient is attempted in order, then the sleep runs. -/
def sendTrace {α : Type} (sendOk : α → Bool) (user_ids : List α) : List (SendEvent α) :=
  ((batchesOf user_ids).map
    (fun batch => batch.map (fun uid => SendEvent.sent uid (sendOk uid))
      ++ [SendEvent.slept])).flatten

/-- The recipients a trace actually attempted, in order. -/
def attemptedOf {α : Type} (tr : List (SendEvent α)) : List α :=
  tr.filterMap (fun e => match e with | .sent uid _ => some uid | .slept => none)

theorem ceil_div_thirty_succ (n : Nat) (hn : 1 ≤ n) :
    (n + 29) / 30 = (n - 30 + 29) / 30 + 1 := by
  rcases Nat.lt_or_ge n 31 with h | h
  · have h1 : n - 30 = 0 := by omega
    rw [h1]
    norm_num
    apply Nat.div_eq_of_lt_le (by omega) (by omega)
  · have h2 : n + 29 = (n - 30 + 29) + 30 := by omega
    rw [h2, Nat.add_div_right _ (by omega)]

theorem batchesOf_cons_eq {α : Type} (l : List α) (hl : l ≠ []) :
    batchesOf l = l.take BATCH_SIZE :: batchesOf (l.drop BATCH_SIZE) := by
  have hn : 1 ≤ l.length := List.length_pos.mpr hl
  unfold batchesOf BATCH_SIZE
  rw [List.length_drop]
  rw [ceil_div_thirty_succ l.length hn]
  rw [List.range_succ_eq_map, List.map_cons, List.map_map]
  congr 1
  norm_num
  intro a _
  have h30 : 30 * (a + 1) = 30 + 30 * a := by ring
  rw [h30]

theorem join_batchesOf {α : Type} (l : List α) : (batchesOf l).flatten = l := by
  by_cases hl : l = []
  · subst hl
    simp [batchesOf, BATCH_SIZE]
  · rw [batchesOf_cons_eq l hl]
    rw [List.flatten_cons]
    rw [join_batchesOf (l.drop BATCH_SIZE)]
    exact List.take_append_drop BATCH_SIZE l
termination_by l.length
decreasing_by
  simp only [List.length_drop]
  have h1 : 1 ≤ l.length := List.length_pos.mpr hl
  unfold BATCH_SIZE
  omega

theorem sendToBatch_sum {α : Type} (sendOk : α → Bool) (batch : List α) :
    ∀ acc : Nat × Nat,
      (sendToBatch sendOk batch acc).1 + (sendToBatch sendOk batch acc).2
        = acc.1 + acc.2 + batch.length := by
  induction batch with
  | nil =>
    intro acc
    simp [sendToBatch]
  | cons uid rest ih =>
    intro acc
    rw [show sendToBatch sendOk (uid :: rest) acc
        = sendToBatch sendOk rest
            (if sendOk uid then (acc.1 + 1, acc.2) else (acc.1, acc.2 + 1)) from rfl]
    rw [ih]
    cases h : sendOk uid
    · show acc.1 + (acc.2 + 1) + rest.length = acc.1 + acc.2 + (uid :: rest).length
      rw [List.length_cons]
      omega
    · show (acc.1 + 1) + acc.2 + rest.length = acc.1 + acc.2 + (uid :: rest).length
      rw [List.length_cons]
      omega

theorem foldl_sendToBatch_sum {α : Type} (sendOk : α → Bool) (bs : List (List α)) :
    ∀ acc : Nat × Nat,
      (bs.foldl (fun acc batch => sendToBatch sendOk batch acc) acc).1
        + (bs.foldl (fun acc batch => sendToBatch sendOk batch acc) acc).2
        = acc.1 + acc.2 + (bs.map List.length).sum := by
  induction bs with
  | nil =>
    intro acc
    simp
  | cons b rest ih =>
    intro acc
    rw [List.foldl_cons, ih, sendToBatch_sum]
    simp only [List.map_cons, List.sum_cons]
    omega

theorem attemptedOf_batchTrace {α : Type} (sendOk : α → Bool) (batch : List α) :
    attemptedOf (batch.map (fun uid => SendEvent.sent uid (sendOk uid))
      ++ [SendEvent.slept]) = batch := by
  unfold attemptedOf
  rw [List.filterMap_append, List.filterMap_map]
  show batch.filterMap some ++ [] = batch
  rw [List.filterMap_some, List.append_nil]

theorem attemptedOf_joined {α : Type} (sendOk : α → Bool) (bs : List (List α)) :
    attemptedOf ((bs.map
      (fun batch => batch.map (fun uid => SendEvent.sent uid (sendOk uid))
        ++ [SendEvent.slept])).flatten) = bs.flatten := by
  induction bs with
  | nil => rfl
  | cons b rest ih =>
    rw [List.map_cons, List.flatten_cons, List.flatten_cons]
    unfold attemptedOf at *
    rw [List.filterMap_append]
    rw [ih]
    have hb := attemptedOf_batchTrace sendOk b
    unfold attemptedOf at hb
    rw [hb]

theorem count_slept_batchTrace {α : Type} [DecidableEq α] (sendOk : α → Bool)
    (batch : List α) :
    (batch.map (fun uid => SendEvent.sent uid (sendOk uid))
      ++ [SendEvent.slept]).count (SendEvent.slept : SendEvent α) = 1 := by
  rw [List.count_append]
  have h0 : (batch.map (fun uid => SendEvent.sent uid (sendOk uid))).count
      (SendEvent.slept : SendEvent α) = 0 := by
    rw [List.count_eq_zero]
    intro hmem
    simp only [List.mem_map] at hmem
    obtain ⟨uid, _, heq⟩ := hmem
    exact SendEvent.noConfusion heq
  rw [h0]
  rfl

theorem count_slept_joined {α : Type} [DecidableEq α] (sendOk : α → Bool)
    (bs : List (List α)) :
    (((bs.map (fun batch => batch.map (fun uid => SendEvent.sent uid (sendOk uid))
        ++ [SendEvent.slept])).flatten).count (SendEvent.slept : SendEvent α))
      = bs.length := by
  induction bs with
  | nil => rfl
  | cons b rest ih =>
    rw [List.map_cons, List.flatten_cons, List.count_append, ih,
      count_slept_batchTrace sendOk b, List.length_cons]
    omega

/-- Claim C8: the batched broadcast partitions the recipients into
`ceil(n / 30)` batches of at most 30 each whose concatenation is exactly
the recipient list (for 65 recipients: three batches of sizes 30, 30, 5);
the returned counters satisfy `success + failures = n`; every recipient is
attempted exactly once, in order, regardless of which sends fail (one
recipient's exception never blocks the rest); and the fixed 1-second sleep
runs once per batch, in particular between consecutive batches. -/
theorem broadcast_batching_properties {α : Type} [DecidableEq α] :
    (∀ (sendOk : α → Bool) (l : List α),
        (send_batch_messages sendOk l).1 + (send_batch_messages sendOk l).2 = l.length)
  ∧ (∀ l : List α, (batchesOf l).length = (l.length + (BATCH_SIZE - 1)) / BATCH_SIZE)
  ∧ (∀ (l b : List α), b ∈ batchesOf l → b.length ≤ BATCH_SIZE)
  ∧ (∀ l : List α, (batchesOf l).flatten = l)
  ∧ (∀ (sendOk : α → Bool) (l : List α), attemptedOf (sendTrace sendOk l) = l)
  ∧ (∀ (sendOk : α → Bool) (l : List α),
        (sendTrace sendOk l).count (SendEvent.slept : SendEvent α) = (batchesOf l).length)
  ∧ (batchesOf (List.range 65)).map List.length = [30, 30, 5] := by
  refine ⟨?_, ?_, ?_, ?_, ?_, ?_, ?_⟩
  · intro sendOk l
    unfold send_batch_messages
    rw [foldl_sendToBatch_sum]
    rw [← List.length_flatten, join_batchesOf]
    simp
  · intro l
    unfold batchesOf
    rw [List.length_map, List.length_range]
  · intro l b hb
    unfold batchesOf at hb
    simp only [List.mem_map] at hb
    obtain ⟨i, _, hbi⟩ := hb
    rw [← hbi]
    exact List.length_take_le _ _
  · exact join_batchesOf
  · intro sendOk l
    unfold sendTrace
    rw [attemptedOf_joined, join_batchesOf]
  · intro sendOk l
    unfold sendTrace
    rw [count_slept_joined]
  · decide

theorem broadcast_batching_properties_witness :
    ([10, 20, 30] : List Nat).length ≤ BATCH_SIZE :=
  broadcast_batching_properties.2.2.1 [10, 20, 30] [10, 20, 30] (by decide)

/-! ### Cache/storage consistency under transaction failure (Claim C1)

`db_cursor` (src/app.py lines 229-245) commits after the unit of work and
rolls back on any exception — including one raised by `conn.commit()`
itself, which sits inside its `try`.  In `save_referral` (lines 1248-1265)
and in the confirmation transaction of `check_membership` (lines 658-676)
the cache `pop` calls run inside the `with db_cursor()` block, before the
commit.  A failure-point parameter injects an exception at each fallible
statement; on any failure the transaction is rolled back (the database is
restored to its pre-transaction state, since nothing was committed) while
the in-memory cache mutations already performed are not undone. -/

inductive SaveFail where
  | ok
  | atInsert
  | atCommit
deriving DecidableEq

/-- `save_referral` (src/app.py lines 1248-1265) with an injected failure
point: the INSERT (`atInsert`) or the final commit in `db_cursor`
(`atCommit`).  Returns `(return value, database, referral cache)`; the
membership cache is not touched by this function.  The
`referral_cache.pop(referrer_id)` runs after the INSERT and before the
commit, so it has already happened when the commit raises. -/
def save_referral_tx (fp : SaveFail) (db : DBState) (rc : ExpiringCache Int Nat)
    (now : Nat) (referrer_id referred_id : Int) :
    Bool × DBState × ExpiringCache Int Nat :=
  match fp with
  | .atInsert => (false, db, rc)
  | .atCommit => (false, db, (rc.pop referrer_id now).2)
  | .ok =>
    (true,
     { db with referrals :=
        insertReferralOnConflictDoNothing db.referrals referrer_id referred_id },
     (rc.pop referrer_id now).2)

inductive ConfirmFail where
  | ok
  | atDelete
  | atInsert
  | atCommit
deriving DecidableEq

/-- The referral-confirmation transaction of `check_membership`
(src/app.py lines 658-676) with an injected failure point: the
DELETE..RETURNING (`atDelete`), the INSERT (`atInsert`; only executed when
a pending row was returned, so when there is none the block proceeds
straight to the commit), or the commit (`atCommit`).  The two cache pops
(referred user's membership, referrer's referral count) run inside the
block after the INSERT and only when a pending row was returned, so on a
commit failure they have already happened. -/
def confirm_tx (fp : ConfirmFail) (db : DBState) (mc : ExpiringCache Int Bool)
    (rc : ExpiringCache Int Nat) (now : Nat) (user_id : Int) :
    DBState × ExpiringCache Int Bool × ExpiringCache Int Nat :=
  match fp with
  | .atDelete => (db, mc, rc)
  | .atInsert => (db, mc, rc)
  | .atCommit =>
    match lookupReferrer db.pending user_id with
    | none => (db, mc, rc)
    | some r => (db, (mc.pop user_id now).2, (rc.pop r now).2)
  | .ok =>
    match lookupReferrer db.pending user_id with
    | none => ({ db with pending := deletePendingRows db.pending user_id }, mc, rc)
    | some r =>
      ({ referrals := insertReferralOnConflictDoNothing db.referrals r user_id,
         pending := deletePendingRows db.pending user_id },
       (mc.pop user_id now).2, (rc.pop r now).2)

theorem keysOf_pop_subset {K V : Type} [DecidableEq K] (c : ExpiringCache K V)
    (k : K) (now : Nat) :
    ∀ a ∈ keysOf (c.pop k now).2.cache, a ∈ keysOf c.cache := by
  intro a ha
  cases hl : lookupEntry c.cache k with
  | none =>
    simp only [ExpiringCache.pop, hl] at ha
    exact ha
  | some tsv =>
    obtain ⟨ts, v⟩ := tsv
    simp only [ExpiringCache.pop, hl] at ha
    split at ha <;>
    · simp only [keysOf, List.mem_map] at ha ⊢
      obtain ⟨e, he, hea⟩ := ha
      exact ⟨e, (List.mem_filter.mp he).1, hea⟩

/-- Claim C1 counterexample: `save_referral` pops the referrer's
referral-count cache entry inside the transaction, before `db_cursor`
commits.  When the commit itself raises — it sits inside `db_cursor`'s
`try`, whose `except` rolls the transaction back — the storage write is
undone but the cache entry is already gone: after this failed, rolled-back
write the referral cache is *not* exactly as it was before the
operation. -/
theorem commit_failure_pops_cache :
    (save_referral_tx SaveFail.atCommit ⟨[], []⟩ ⟨[(5, 0, 3)], 5000, 3600⟩ 1 5 7).2.1
      = ⟨[], []⟩
    ∧ (save_referral_tx SaveFail.atCommit ⟨[], []⟩ ⟨[(5, 0, 3)], 5000, 3600⟩ 1 5 7).2.2.cache
      = []
    ∧ ((⟨[(5, 0, 3)], 5000, 3600⟩ : ExpiringCache Int Nat)).cache ≠ [] :=
  ⟨rfl, by decide, by decide⟩

/-- Claim C1 amended: on any write failure the transaction is rolled back
(the database is unchanged) and the caches are never populated (no cache
key appears that was not already present); if the failure occurs at a
statement before the cache pops are reached — the INSERT of
`save_referral`, or the DELETE/INSERT of the confirmation — the caches are
exactly as they were; but if the commit itself fails, the affected entries
may already have been popped (invalidated). -/
theorem write_failure_cache_effects :
    (∀ (fp : SaveFail) (db : DBState) (rc : ExpiringCache Int Nat)
        (now : Nat) (r u : Int), fp ≠ SaveFail.ok →
        (save_referral_tx fp db rc now r u).1 = false
        ∧ (save_referral_tx fp db rc now r u).2.1 = db
        ∧ (∀ a ∈ keysOf (save_referral_tx fp db rc now r u).2.2.cache, a ∈ keysOf rc.cache)
        ∧ (fp = SaveFail.atInsert → (save_referral_tx fp db rc now r u).2.2 = rc))
  ∧ (∀ (fp : ConfirmFail) (db : DBState) (mc : ExpiringCache Int Bool)
        (rc : ExpiringCache Int Nat) (now : Nat) (u : Int), fp ≠ ConfirmFail.ok →
        (confirm_tx fp db mc rc now u).1 = db
        ∧ (∀ a ∈ keysOf (confirm_tx fp db mc rc now u).2.1.cache, a ∈ keysOf mc.cache)
        ∧ (∀ a ∈ keysOf (confirm_tx fp db mc rc now u).2.2.cache, a ∈ keysOf rc.cache)
        ∧ ((fp = ConfirmFail.atDelete ∨ fp = ConfirmFail.atInsert) →
            (confirm_tx fp db mc rc now u).2.1 = mc
            ∧ (confirm_tx fp db mc rc now u).2.2 = rc)) := by
  constructor
  · intro fp db rc now r u hfp
    cases fp with
    | ok => exact absurd rfl hfp
    | atInsert => exact ⟨rfl, rfl, fun a ha => ha, fun _ => rfl⟩
    | atCommit =>
      exact ⟨rfl, rfl, keysOf_pop_subset rc r now, fun h => SaveFail.noConfusion h⟩
  · intro fp db mc rc now u hfp
    cases fp with
    | ok => exact absurd rfl hfp
    | atDelete => exact ⟨rfl, fun a ha => ha, fun a ha => ha, fun _ => ⟨rfl, rfl⟩⟩
    | atInsert => exact ⟨rfl, fun a ha => ha, fun a ha => ha, fun _ => ⟨rfl, rfl⟩⟩
    | atCommit =>
      cases hl : lookupReferrer db.pending u with
      | none =>
        unfold confirm_tx
        rw [hl]
        exact ⟨rfl, fun a ha => ha, fun a ha => ha,
          fun h => by rcases h with h | h <;> exact ConfirmFail.noConfusion h⟩
      | some r =>
        unfold confirm_tx
        rw [hl]
        exact ⟨rfl, keysOf_pop_subset mc u now, keysOf_pop_subset rc r now,
          fun h => by rcases h with h | h <;> exact ConfirmFail.noConfusion h⟩

theorem write_failure_cache_effects_witness :
    ((save_referral_tx SaveFail.atCommit ⟨[], []⟩ (ExpiringCache.empty 5000 3600) 0 5 7).1
        = false
      ∧ (save_referral_tx SaveFail.atCommit ⟨[], []⟩ (ExpiringCache.empty 5000 3600) 0 5 7).2.1
        = (⟨[], []⟩ : DBState)
      ∧ (∀ a ∈ keysOf (save_referral_tx SaveFail.atCommit ⟨[], []⟩
            (ExpiringCache.empty 5000 3600) 0 5 7).2.2.cache,
          a ∈ keysOf (ExpiringCache.empty 5000 3600 : ExpiringCache Int Nat).cache)
      ∧ (SaveFail.atCommit = SaveFail.atInsert →
          (save_referral_tx SaveFail.atCommit ⟨[], []⟩
            (ExpiringCache.empty 5000 3600) 0 5 7).2.2
            = ExpiringCache.empty 5000 3600))
    ∧ ((confirm_tx ConfirmFail.atDelete ⟨[], []⟩ (ExpiringCache.empty 5000 1800)
          (ExpiringCache.empty 5000 3600) 0 7).1 = (⟨[], []⟩ : DBState)
      ∧ (∀ a ∈ keysOf (confirm_tx ConfirmFail.atDelete ⟨[], []⟩
            (ExpiringCache.empty 5000 1800) (ExpiringCache.empty 5000 3600) 0 7).2.1.cache,
          a ∈ keysOf (ExpiringCache.empty 5000 1800 : ExpiringCache Int Bool).cache)
      ∧ (∀ a ∈ keysOf (confirm_tx ConfirmFail.atDelete ⟨[], []⟩
            (ExpiringCache.empty 5000 1800) (ExpiringCache.empty 5000 3600) 0 7).2.2.cache,
          a ∈ keysOf (ExpiringCache.empty 5000 3600 : ExpiringCache Int Nat).cache)
      ∧ ((ConfirmFail.atDelete = ConfirmFail.atDelete
            ∨ ConfirmFail.atDelete = ConfirmFail.atInsert) →
          (confirm_tx ConfirmFail.atDelete ⟨[], []⟩ (ExpiringCache.empty 5000 1800)
            (ExpiringCache.empty 5000 3600) 0 7).2.1 = ExpiringCache.empty 5000 1800
          ∧ (confirm_tx ConfirmFail.atDelete ⟨[], []⟩ (ExpiringCache.empty 5000 1800)
            (ExpiringCache.empty 5000 3600) 0 7).2.2 = ExpiringCache.empty 5000 3600)) :=
  ⟨write_failure_cache_effects.1 SaveFail.atCommit ⟨[], []⟩
      (ExpiringCache.empty 5000 3600) 0 5 7 (by decide),
   write_failure_cache_effects.2 ConfirmFail.atDelete ⟨[], []⟩
      (ExpiringCache.empty 5000 1800) (ExpiringCache.empty 5000 3600) 0 7 (by decide)⟩

end TelegramLive
